import Mathlib

/-!
Verification of `knowledge_repo/converters/html.py`, a markdown-to-HTML
converter for knowledge posts.  The Python source is shallowly embedded:
pure methods become Lean functions, the mutation of the headers dict is
made explicit by returning the updated mapping, and Python exceptions
(KeyError, TypeError, AttributeError, UnboundLocalError) become `Except`
errors.  The third-party markdown engine is kept abstract (a parameter
`String → String`); the small pieces of library behaviour the embedded
methods rely on (`BlockProcessor.detab`, `mimetypes.guess_type`,
`base64.b64encode`, regular-expression matching for the three fixed
patterns of the file) are embedded faithfully from their documented
semantics.
-/

/-- Whitespace characters recognised by Python `str.strip()` (the ASCII
ones; the claims only exercise ASCII input). -/
def pyIsSpace (c : Char) : Bool :=
  c = ' ' || c = '\t' || c = '\n' || c = '\r' || c = '\x0b' || c = '\x0c'

/-- Python `str.strip()`: remove leading and trailing whitespace. -/
def pyStripChars (l : List Char) : List Char :=
  ((l.dropWhile pyIsSpace).reverse.dropWhile pyIsSpace).reverse

/-- Python `str.strip()` lifted to `String`. -/
def pyStrip (s : String) : String := ⟨pyStripChars s.data⟩

/-- Python `str.rstrip()`: remove trailing whitespace. -/
def pyRstrip (s : String) : String := ⟨(s.data.reverse.dropWhile pyIsSpace).reverse⟩

/-- Loop of `KnowledgeMetaPreprocessor.run`: Python iterates
`for i, line in enumerate(lines)`, increments `cnt` on every line whose
strip equals `---`, and breaks as soon as `cnt == 2`; the function
returns the final value of the loop variable `i`.  `i0` is the index of
the head of `l`; when the list is exhausted without a break the final
`i` is the index of the last element, i.e. `i0 - 1` seen from the empty
suffix. -/
def kmFinalI : List String → Nat → Nat → Nat
  | [], i0, _ => i0 - 1
  | line :: rest, i0, cnt =>
      let cnt' := if pyStrip line = "---" then cnt + 1 else cnt
      if cnt' = 2 then i0 else kmFinalI rest (i0 + 1) cnt'

/-- `KnowledgeMetaPreprocessor.run` (html.py lines 89-97): returns
`lines[i + 1:]` for the final loop index `i`; on an empty input Python
raises `NameError` (the loop variable was never bound), modelled as
`none`. -/
def knowledgeMetaRun (lines : List String) : Option (List String) :=
  if lines.isEmpty then none
  else some (lines.drop (kmFinalI lines 0 0 + 1))

theorem kmFinalI_skip (l : List String) (i0 cnt : Nat)
    (hcnt : cnt ≠ 2) (hl : ∀ x ∈ l, pyStrip x ≠ "---") (rest : List String) :
    kmFinalI (l ++ rest) i0 cnt = kmFinalI rest (i0 + l.length) cnt := by
  induction l generalizing i0 with
  | nil => simp
  | cons x xs ih =>
      have hx : pyStrip x ≠ "---" := hl x (by simp)
      have hxs : ∀ y ∈ xs, pyStrip y ≠ "---" := fun y hy => hl y (by simp [hy])
      simp only [List.cons_append, kmFinalI, hx, if_false, hcnt]
      rw [show xs.append rest = xs ++ rest from rfl, ih (i0 + 1) hxs]
      simp [Nat.add_comm, Nat.add_assoc, Nat.add_left_comm]

/-- C2: the front-matter preprocessor drops everything up to and
including the second line stripping to a bare triple dash and hands the
remaining lines on. -/
theorem knowledgeMetaRun_strips_front_matter
    (l₁ l₂ l₃ : List String) (d₁ d₂ : String)
    (h₁ : ∀ x ∈ l₁, pyStrip x ≠ "---") (hd₁ : pyStrip d₁ = "---")
    (h₂ : ∀ x ∈ l₂, pyStrip x ≠ "---") (hd₂ : pyStrip d₂ = "---") :
    knowledgeMetaRun (l₁ ++ [d₁] ++ l₂ ++ [d₂] ++ l₃) = some l₃ := by
  have hP : l₁ ++ [d₁] ++ l₂ ++ [d₂] ++ l₃
      = l₁ ++ (d₁ :: (l₂ ++ (d₂ :: l₃))) := by
    simp
  rw [hP]
  have hstep₁ : ∀ (rest : List String) (i0 : Nat),
      kmFinalI (d₁ :: rest) i0 0 = kmFinalI rest (i0 + 1) 1 := by
    intro rest i0
    simp [kmFinalI, hd₁]
  have hstep₂ : ∀ (rest : List String) (i0 : Nat),
      kmFinalI (d₂ :: rest) i0 1 = i0 := by
    intro rest i0
    simp [kmFinalI, hd₂]
  have hfi : kmFinalI (l₁ ++ (d₁ :: (l₂ ++ (d₂ :: l₃)))) 0 0
      = l₁.length + 1 + l₂.length := by
    rw [kmFinalI_skip l₁ 0 0 (by decide) h₁, hstep₁,
      kmFinalI_skip l₂ _ 1 (by decide) h₂, hstep₂]
    omega
  have hlist : l₁ ++ (d₁ :: (l₂ ++ (d₂ :: l₃)))
      = (l₁ ++ (d₁ :: (l₂ ++ [d₂]))) ++ l₃ := by
    simp
  have hlen : (l₁ ++ (d₁ :: (l₂ ++ [d₂]))).length
      = l₁.length + 1 + l₂.length + 1 := by
    simp
    omega
  have hdrop : (l₁ ++ (d₁ :: (l₂ ++ (d₂ :: l₃)))).drop
      (l₁.length + 1 + l₂.length + 1) = l₃ := by
    rw [hlist, ← hlen, List.drop_left]
  have hne : (l₁ ++ (d₁ :: (l₂ ++ (d₂ :: l₃)))).isEmpty = false := by
    cases l₁ <;> rfl
  rw [knowledgeMetaRun, hne]
  simp only [Bool.false_eq_true, if_false]
  rw [hfi, hdrop]

/-- Witness for C2 at the spec's concrete example. -/
theorem knowledgeMetaRun_strips_front_matter_witness :
    knowledgeMetaRun ["---", "title: A", "---", "body"] = some ["body"] :=
  knowledgeMetaRun_strips_front_matter [] ["title: A"] ["body"] "---" "---"
    (by simp) (by decide) (by decide) (by decide)

/-- Values stored in a post's header mapping: plain strings, lists of
strings (authors, tags), or datetimes.  A datetime is carried by the
string its `isoformat()` call produces, which is the only attribute the
converter reads from it. -/
inductive HVal where
  | str : String → HVal
  | strs : List String → HVal
  | date : String → HVal
deriving DecidableEq

/-- Python dict read: `headers[k]` / `k in headers`. -/
def lookupH (k : String) : List (String × HVal) → Option HVal
  | [] => none
  | (k', v) :: rest => if k' = k then some v else lookupH k rest

/-- Python dict assignment `headers[k] = v`: overwrite in place when the
key exists, append otherwise (insertion order preserved). -/
def setH : List (String × HVal) → String → HVal → List (String × HVal)
  | [], k, v => [(k, v)]
  | (k', v') :: rest, k, v =>
      if k' = k then (k, v) :: rest else (k', v') :: setH rest k v

/-- Python `', '.join(x)`: joins a list of strings; a plain string is
itself an iterable of characters; anything else raises `TypeError`
(including the `None` that `headers.get` yields for a missing key,
handled at the call site). -/
def pyJoinComma : HVal → Except String String
  | .strs l => .ok (String.intercalate ", " l)
  | .str s => .ok (String.intercalate ", " (s.data.map (fun c => String.singleton c)))
  | .date _ => .error "TypeError: can only join an iterable"

/-- Conversion a `str.format` field applies to a header value.  Only the
`.str` arm is ever exercised by the template (all referenced fields hold
strings by the time the template is formatted, except `title`, which the
claims always supply as a string). -/
def hvalFormat : HVal → String
  | .str s => s
  | .strs l => "[" ++ String.intercalate ", " (l.map (fun s => "\x27" ++ s ++ "\x27")) ++ "]"
  | .date d => d

/-- Header template of `HTMLConverter.render_headers` (html.py lines
185-194) with the five referenced fields substituted. -/
def renderHeaderTemplate (title authors dc du tldr : String) : String :=
  "\n<h1>" ++ title ++ "</h1>\n<p id=\x27metadata\x27>\n<strong>Author</strong>: "
    ++ authors ++ " <br>\n<strong>Date Created</strong>: " ++ dc
    ++ "<br>\n<strong>Date Updated</strong>: " ++ du
    ++ "<br>\n<strong>Tags</strong><text>: </text><br>\n<strong>TLDR</strong>: "
    ++ tldr ++ "<br>\n</p>\n"

/-- `HTMLConverter.render_headers` (html.py lines 176-196).  `headers`
aliases the post's header dict, so the four assignments mutate the
post's headers; the updated mapping is returned alongside the rendered
block.  `mdTldr` is the external markdown engine rendering the tldr.
Missing or wrongly-typed fields raise, modelled as `Except.error`. -/
def render_headers (mdTldr : String → String) (headers : List (String × HVal)) :
    Except String (String × List (String × HVal)) :=
  match lookupH "authors" headers with
  | none => .error "TypeError: can only join an iterable"
  | some av =>
    match pyJoinComma av with
    | .error e => .error e
    | .ok authorsJoined =>
      let headers₁ := setH headers "authors_string" (.str authorsJoined)
      match lookupH "tldr" headers₁ with
      | some (.str t) =>
        let tldrRendered := mdTldr t
        let headers₂ := setH headers₁ "tldr" (.str tldrRendered)
        match lookupH "created_at" headers₂ with
        | some (.date dc) =>
          let headers₃ := setH headers₂ "date_created" (.str dc)
          match lookupH "updated_at" headers₃ with
          | some (.date du) =>
            let headers₄ := setH headers₃ "date_updated" (.str du)
            match lookupH "title" headers₄ with
            | some tv =>
                .ok (renderHeaderTemplate (hvalFormat tv) authorsJoined dc du
                  tldrRendered, headers₄)
            | none => .error "KeyError: title"
          | some _ => .error "AttributeError: isoformat"
          | none => .error "KeyError: updated_at"
        | some _ => .error "AttributeError: isoformat"
        | none => .error "KeyError: created_at"
      | some _ => .error "TypeError: tldr is not markdown text"
      | none => .error "KeyError: tldr"

theorem lookupH_setH_self (h : List (String × HVal)) (k : String) (v : HVal) :
    lookupH k (setH h k v) = some v := by
  induction h with
  | nil => simp [setH, lookupH]
  | cons p rest ih =>
      obtain ⟨k', v'⟩ := p
      by_cases hk : k' = k
      · simp [setH, hk, lookupH]
      · simp [setH, hk, lookupH, ih]

theorem lookupH_setH_other (h : List (String × HVal)) (k k' : String) (v : HVal)
    (hne : k' ≠ k) : lookupH k' (setH h k v) = lookupH k' h := by
  induction h with
  | nil => simp [setH, lookupH, hne.symm]
  | cons p rest ih =>
      obtain ⟨k₀, v₀⟩ := p
      by_cases hk : k₀ = k
      · subst hk
        simp [setH, lookupH, hne.symm]
      · simp only [setH, if_neg hk, lookupH]
        by_cases hk' : k₀ = k'
        · simp [hk']
        · simp [hk', ih]

/-- Concrete post headers used to exhibit the mutation performed by
`render_headers`. -/
def c10Headers : List (String × HVal) :=
  [("title", .str "T"), ("authors", .strs ["A"]), ("tldr", .str "t"),
   ("created_at", .date "2020-01-01T00:00:00"),
   ("updated_at", .date "2020-01-02T00:00:00")]

/-- Headers of `c10Headers` after `render_headers` ran with the engine
wrapping its input in a paragraph. -/
def c10HeadersAfter : List (String × HVal) :=
  [("title", .str "T"), ("authors", .strs ["A"]),
   ("tldr", .str "<p>t</p>"),
   ("created_at", .date "2020-01-01T00:00:00"),
   ("updated_at", .date "2020-01-02T00:00:00"),
   ("authors_string", .str "A"),
   ("date_created", .str "2020-01-01T00:00:00"),
   ("date_updated", .str "2020-01-02T00:00:00")]

/-- C10 counterexample: rendering does NOT only read the post.  On a
concrete post, `render_headers` adds the keys `authors_string`,
`date_created` and `date_updated` to the headers mapping and overwrites
`tldr` with its markdown rendering, so the mapping does not hold the
same keys and values as before the call. -/
theorem render_headers_not_read_only_cex :
    (render_headers (fun s => "<p>" ++ s ++ "</p>") c10Headers).map Prod.snd
        = .ok c10HeadersAfter
    ∧ c10HeadersAfter ≠ c10Headers
    ∧ lookupH "authors_string" c10Headers = none
    ∧ lookupH "authors_string" c10HeadersAfter = some (.str "A")
    ∧ lookupH "tldr" c10Headers = some (.str "t")
    ∧ lookupH "tldr" c10HeadersAfter = some (.str "<p>t</p>") := by
  refine ⟨by rfl, by decide, by decide, by decide, by decide, by decide⟩

/-- C10 amended: `render_headers` mutates the post's headers mapping in
place: it adds `authors_string`, `date_created` and `date_updated` and
overwrites `tldr` with its markdown rendering; the `created_at` and
`updated_at` values and every other pre-existing key are unchanged. -/
theorem render_headers_mutation_amended (mdTldr : String → String)
    (headers : List (String × HVal)) (authors : List String)
    (tldr ciso uiso : String) (tv : HVal)
    (ha : lookupH "authors" headers = some (.strs authors))
    (ht : lookupH "tldr" headers = some (.str tldr))
    (hc : lookupH "created_at" headers = some (.date ciso))
    (hu : lookupH "updated_at" headers = some (.date uiso))
    (htitle : lookupH "title" headers = some tv) :
    ∃ rendered out,
      render_headers mdTldr headers = .ok (rendered, out) ∧
      lookupH "authors_string" out
        = some (.str (String.intercalate ", " authors)) ∧
      lookupH "tldr" out = some (.str (mdTldr tldr)) ∧
      lookupH "date_created" out = some (.str ciso) ∧
      lookupH "date_updated" out = some (.str uiso) ∧
      lookupH "created_at" out = some (.date ciso) ∧
      lookupH "updated_at" out = some (.date uiso) ∧
      ∀ k, k ≠ "authors_string" → k ≠ "tldr" → k ≠ "date_created" →
        k ≠ "date_updated" → lookupH k out = lookupH k headers := by
  simp only [render_headers, ha, pyJoinComma]
  rw [lookupH_setH_other headers "authors_string" "tldr" _ (by decide), ht]
  simp only []
  rw [lookupH_setH_other _ "tldr" "created_at" _ (by decide),
    lookupH_setH_other _ "authors_string" "created_at" _ (by decide), hc]
  simp only []
  rw [lookupH_setH_other _ "date_created" "updated_at" _ (by decide),
    lookupH_setH_other _ "tldr" "updated_at" _ (by decide),
    lookupH_setH_other _ "authors_string" "updated_at" _ (by decide), hu]
  simp only []
  rw [lookupH_setH_other _ "date_updated" "title" _ (by decide),
    lookupH_setH_other _ "date_created" "title" _ (by decide),
    lookupH_setH_other _ "tldr" "title" _ (by decide),
    lookupH_setH_other _ "authors_string" "title" _ (by decide), htitle]
  simp only []
  refine ⟨_, _, rfl, ?_, ?_, ?_, ?_, ?_, ?_, ?_⟩
  · rw [lookupH_setH_other _ "date_updated" "authors_string" _ (by decide),
      lookupH_setH_other _ "date_created" "authors_string" _ (by decide),
      lookupH_setH_other _ "tldr" "authors_string" _ (by decide),
      lookupH_setH_self]
  · rw [lookupH_setH_other _ "date_updated" "tldr" _ (by decide),
      lookupH_setH_other _ "date_created" "tldr" _ (by decide),
      lookupH_setH_self]
  · rw [lookupH_setH_other _ "date_updated" "date_created" _ (by decide),
      lookupH_setH_self]
  · rw [lookupH_setH_self]
  · rw [lookupH_setH_other _ "date_updated" "created_at" _ (by decide),
      lookupH_setH_other _ "date_created" "created_at" _ (by decide),
      lookupH_setH_other _ "tldr" "created_at" _ (by decide),
      lookupH_setH_other _ "authors_string" "created_at" _ (by decide), hc]
  · rw [lookupH_setH_other _ "date_updated" "updated_at" _ (by decide),
      lookupH_setH_other _ "date_created" "updated_at" _ (by decide),
      lookupH_setH_other _ "tldr" "updated_at" _ (by decide),
      lookupH_setH_other _ "authors_string" "updated_at" _ (by decide), hu]
  · intro k h1 h2 h3 h4
    rw [lookupH_setH_other _ "date_updated" k _ h4,
      lookupH_setH_other _ "date_created" k _ h3,
      lookupH_setH_other _ "tldr" k _ h2,
      lookupH_setH_other _ "authors_string" k _ h1]

/-- Witness for the amended C10 theorem at the concrete post. -/
theorem render_headers_mutation_amended_witness :
    lookupH "authors" c10Headers = some (.strs ["A"])
    ∧ ∃ rendered out,
      render_headers (fun s => "<p>" ++ s ++ "</p>") c10Headers
          = .ok (rendered, out) ∧
      lookupH "authors_string" out = some (.str (String.intercalate ", " ["A"])) ∧
      lookupH "tldr" out = some (.str ((fun s => "<p>" ++ s ++ "</p>") "t")) ∧
      lookupH "date_created" out = some (.str "2020-01-01T00:00:00") ∧
      lookupH "date_updated" out = some (.str "2020-01-02T00:00:00") ∧
      lookupH "created_at" out = some (.date "2020-01-01T00:00:00") ∧
      lookupH "updated_at" out = some (.date "2020-01-02T00:00:00") ∧
      ∀ k, k ≠ "authors_string" → k ≠ "tldr" → k ≠ "date_created" →
        k ≠ "date_updated" → lookupH k out = lookupH k c10Headers :=
  ⟨by decide,
   render_headers_mutation_amended (fun s => "<p>" ++ s ++ "</p>") c10Headers
     ["A"] "t" "2020-01-01T00:00:00" "2020-01-02T00:00:00" (.str "T")
     (by decide) (by decide) (by decide) (by decide) (by decide)⟩

/-- Base64 alphabet of RFC 4648, as used by `base64.b64encode`. -/
def b64Alphabet : List Char :=
  "ABCDEFGHIJKLMNOPQRSTUVWXYZabcdefghijklmnopqrstuvwxyz0123456789+/".data

/-- Character for a 6-bit group. -/
def b64Char (n : Nat) : Char := b64Alphabet.getD n 'A'

/-- `base64.b64encode` over a byte sequence (each entry taken mod 256):
groups of three bytes become four alphabet characters, a trailing group
of one or two bytes is padded with `=`. -/
def b64encode : List Nat → List Char
  | [] => []
  | [a] =>
      let a := a % 256
      [b64Char (a / 4), b64Char (a % 4 * 16), '=', '=']
  | [a, b] =>
      let a := a % 256
      let b := b % 256
      [b64Char (a / 4), b64Char (a % 4 * 16 + b / 16), b64Char (b % 16 * 4), '=']
  | a :: b :: c :: rest =>
      let a := a % 256
      let b := b % 256
      let c := c % 256
      b64Char (a / 4) :: b64Char (a % 4 * 16 + b / 16)
        :: b64Char (b % 16 * 4 + c / 64) :: b64Char (c % 64) :: b64encode rest

/-- ASCII lowercase of a character, as Python lowercases extensions. -/
def asciiLower (c : Char) : Char :=
  if 'A' ≤ c ∧ c ≤ 'Z' then Char.ofNat (c.toNat + 32) else c

/-- Extension of a filename or URL: the lowercased suffix from the last
dot on, `none` when there is no dot. -/
def extOf (url : String) : Option String :=
  if url.data.contains '.' then
    some ⟨'.' :: ((url.data.reverse.takeWhile (fun c => c ≠ '.')).reverse.map
      asciiLower)⟩
  else none

/-- `mimetypes.guess_type(url)[0]`, modelled from the Python standard
library's default extension-to-type table (restricted to the image types
a post can carry). -/
def guess_type (url : String) : Option String :=
  match extOf url with
  | none => none
  | some ext =>
      if ext = ".png" then some "image/png"
      else if ext = ".jpg" then some "image/jpeg"
      else if ext = ".jpeg" then some "image/jpeg"
      else if ext = ".gif" then some "image/gif"
      else if ext = ".svg" then some "image/svg+xml"
      else none

/-- Lookup in the post's image mapping `self.kp_images`. -/
def lookupImg (url : String) : List (String × List Nat) → Option (List Nat)
  | [] => none
  | (k, v) :: rest => if k = url then some v else lookupImg url rest

/-- `HTMLConverter.base64_encode_image_mapper` (html.py lines 198-205):
for an `img` tag whose URL is a key of the post's image mapping and has
a guessable MIME type, produce the data URI the source formats as
`data:<mime>;base64, <data>` (the format string contains a space after
the comma); in every other case fall through to `return None`. -/
def base64_encode_image_mapper (kpImages : List (String × List Nat))
    (tag url : String) : Option String :=
  if tag = "img" then
    match lookupImg url kpImages with
    | some data =>
        match guess_type url with
        | some mime =>
            some ("data:" ++ mime ++ ";base64, " ++ String.mk (b64encode data))
        | none => none
    | none => none
  else none

/-- Image mapping with one PNG of a single byte 137. -/
def c4Images : List (String × List Nat) := [("x.png", [137])]

/-- C4 counterexample: with `x.png` present in the image mapping and a
guessable MIME type, the mapper still returns nothing for tag `a`
(the code first requires the tag to be `img`, which the claim's
"for every tag name" contradicts), and for tag `img` the produced URI
carries a space after `base64,`, so it is not of the exact claimed form
`data:<mime>;base64,<data>`. -/
theorem base64_image_mapper_cex :
    base64_encode_image_mapper c4Images "a" "x.png" = none
    ∧ base64_encode_image_mapper c4Images "img" "x.png"
        = some "data:image/png;base64, iQ=="
    ∧ "data:image/png;base64, iQ==" ≠ "data:image/png;base64," ++ "iQ==" := by
  refine ⟨by decide, by decide, by decide⟩

/-- C4 amended: only for tag `img` does the mapper embed: when the URL
is a key of the image mapping and a MIME type can be guessed from the
extension it returns `data:<mime>;base64, <data>` (with a space after
the comma); when the tag is not `img`, the URL is absent, or no MIME
type can be guessed, it returns nothing. -/
theorem base64_image_mapper_amended (kpImages : List (String × List Nat))
    (tag url : String) :
    (tag ≠ "img" → base64_encode_image_mapper kpImages tag url = none)
    ∧ (lookupImg url kpImages = none →
        base64_encode_image_mapper kpImages tag url = none)
    ∧ (∀ data, lookupImg url kpImages = some data → guess_type url = none →
        base64_encode_image_mapper kpImages tag url = none)
    ∧ (∀ data mime, tag = "img" → lookupImg url kpImages = some data →
        guess_type url = some mime →
        base64_encode_image_mapper kpImages tag url
          = some ("data:" ++ mime ++ ";base64, " ++ String.mk (b64encode data))) := by
  refine ⟨?_, ?_, ?_, ?_⟩
  · intro h
    simp [base64_encode_image_mapper, h]
  · intro h
    by_cases htag : tag = "img"
    · simp [base64_encode_image_mapper, htag, h]
    · simp [base64_encode_image_mapper, htag]
  · intro data hdata hmime
    by_cases htag : tag = "img"
    · simp [base64_encode_image_mapper, htag, hdata, hmime]
    · simp [base64_encode_image_mapper, htag]
  · intro data mime htag hdata hmime
    simp [base64_encode_image_mapper, htag, hdata, hmime]

/-- Witness for the amended C4 theorem: the embedding arm at a concrete
image, and the tag-guard arm at tag `a`. -/
theorem base64_image_mapper_amended_witness :
    base64_encode_image_mapper c4Images "img" "x.png"
        = some ("data:" ++ "image/png" ++ ";base64, " ++ String.mk (b64encode [137]))
    ∧ base64_encode_image_mapper c4Images "a" "x.png" = none :=
  ⟨(base64_image_mapper_amended c4Images "img" "x.png").2.2.2 [137] "image/png"
      rfl (by decide) (by decide),
   (base64_image_mapper_amended c4Images "a" "x.png").1 (by decide)⟩

/-- Store of Python list objects: an id (index) per allocated list.
Aliasing of list objects is what the copy in `to_string` is about, so
the embedding makes object identity explicit. -/
structure ListStore (α : Type) where
  lists : List (List α)

/-- Contents of the list object `i`. -/
def storeGet {α : Type} (st : ListStore α) (i : Nat) : Option (List α) :=
  st.lists.get? i

/-- Python `urlmappers[:]`: allocate a fresh list object holding the
same elements, returning its id. -/
def storeCopy {α : Type} (st : ListStore α) (i : Nat) : ListStore α × Nat :=
  (⟨st.lists ++ [(st.lists.get? i).getD []]⟩, st.lists.length)

/-- Python `lst.insert(0, x)` on the list object `i`, in place. -/
def storeInsert0 {α : Type} (st : ListStore α) (i : Nat) (x : α) : ListStore α :=
  ⟨st.lists.set i (x :: (st.lists.get? i).getD [])⟩

/-- Lines 140-144 of `HTMLConverter.to_string`: the local name
`urlmappers` is rebound to a copy of the caller's list, and when image
embedding is requested `self.base64_encode_image_mapper` is inserted at
position 0 of that copy.  Returns the store and the id the local name is
bound to afterwards. -/
def toStringMapperSetup {α : Type} (st : ListStore α) (callerId : Nat)
    (embed : Bool) (imgMapper : α) : ListStore α × Nat :=
  let p := storeCopy st callerId
  if embed then (storeInsert0 p.1 p.2 imgMapper, p.2) else p

theorem getq_append_left {α : Type} (l₁ l₂ : List α) (i : Nat)
    (h : i < l₁.length) : (l₁ ++ l₂).get? i = l₁.get? i := by
  induction l₁ generalizing i with
  | nil => exact absurd h (by simp)
  | cons a l ih =>
      cases i with
      | zero => rfl
      | succ n =>
          have := ih n (by simp at h; omega)
          simp only [List.cons_append, List.get?]
          exact this

theorem getq_concat_self {α : Type} (l : List α) (a : α) :
    (l ++ [a]).get? l.length = some a := by
  induction l with
  | nil => rfl
  | cons b l ih =>
      simp only [List.cons_append, List.length_cons, List.get?]
      exact ih

/-- C9: with image embedding enabled the image mapper is prepended to a
fresh copy of the caller's mapper list; the caller's list object is a
different object and holds exactly the same elements afterwards. -/
theorem toStringMapperSetup_preserves_caller_list {α : Type}
    (st : ListStore α) (callerId : Nat) (imgMapper : α) (orig : List α)
    (h : storeGet st callerId = some orig) :
    storeGet (toStringMapperSetup st callerId true imgMapper).1 callerId
        = some orig
    ∧ (toStringMapperSetup st callerId true imgMapper).2 ≠ callerId
    ∧ storeGet (toStringMapperSetup st callerId true imgMapper).1
        (toStringMapperSetup st callerId true imgMapper).2
        = some (imgMapper :: orig) := by
  rw [storeGet] at h
  have hlt : callerId < st.lists.length := by
    by_contra hge
    rw [List.get?_eq_none.mpr (Nat.le_of_not_lt hge)] at h
    exact Option.noConfusion h
  have hne : st.lists.length ≠ callerId := Nat.ne_of_gt hlt
  have hcopyGet : (st.lists ++ [(st.lists.get? callerId).getD []]).get?
      st.lists.length = some orig := by
    rw [h]
    exact getq_concat_self _ _
  have hLlt : st.lists.length
      < (st.lists ++ [(st.lists.get? callerId).getD []]).length := by
    simp
  refine ⟨?_, hne, ?_⟩
  · show ((st.lists ++ [(st.lists.get? callerId).getD []]).set st.lists.length
        _).get? callerId = some orig
    rw [List.get?_set_of_lt' _ _ hLlt, if_neg hne,
      getq_append_left _ _ _ hlt, h]
  · show ((st.lists ++ [(st.lists.get? callerId).getD []]).set st.lists.length
        (imgMapper :: ((st.lists ++ [(st.lists.get? callerId).getD []]).get?
          st.lists.length).getD [])).get? st.lists.length = some _
    rw [hcopyGet, List.get?_set_of_lt' _ _ hLlt, if_pos rfl]
    rfl

/-- Witness for C9 at a concrete two-mapper store. -/
theorem toStringMapperSetup_preserves_caller_list_witness :
    storeGet (toStringMapperSetup (⟨[[10, 20]]⟩ : ListStore Nat) 0 true 7).1 0
        = some [10, 20]
    ∧ (toStringMapperSetup (⟨[[10, 20]]⟩ : ListStore Nat) 0 true 7).2 ≠ 0
    ∧ storeGet (toStringMapperSetup (⟨[[10, 20]]⟩ : ListStore Nat) 0 true 7).1
        (toStringMapperSetup (⟨[[10, 20]]⟩ : ListStore Nat) 0 true 7).2
        = some [7, 10, 20] :=
  toStringMapperSetup_preserves_caller_list ⟨[[10, 20]]⟩ 0 7 [10, 20] (by decide)

/-- Quote character class of the fixed patterns, regex bracket of the
two quote characters. -/
def isQuoteChar (c : Char) : Bool := c = '"' || c = '\x27'

/-- Tail segment of the fixed tag patterns after the closing quote: a
lazy dot-star then a literal closing angle bracket.  Returns the number
of characters consumed (including the bracket); the dot does not match a
newline, so the search stops at one. -/
def stageD : List Char → Option Nat
  | [] => none
  | c :: rest =>
      if c = '>' then some 1
      else if c = '\n' then none
      else (stageD rest).map (fun n => n + 1)

/-- URL group of the fixed tag patterns: a lazy dot-star captured up to
a closing quote-class character, then the tail segment.  Lazy semantics:
the shortest capture whose closing quote is followed by a successful
tail wins; on tail failure the quote character joins the capture and the
search goes on. -/
def stageC : List Char → Option (Nat × List Char)
  | [] => none
  | c :: rest =>
      if isQuoteChar c then
        match stageD rest with
        | some d => some (1 + d, [])
        | none =>
            match stageC rest with
            | some (n, url) => some (n + 1, c :: url)
            | none => none
      else if c = '\n' then none
      else
        match stageC rest with
        | some (n, url) => some (n + 1, c :: url)
        | none => none

/-- Attribute segment of the fixed tag patterns: the literal `attr`
(`src=` or `href=`), an opening quote-class character, then the URL
group. -/
def stageB (attr s : List Char) : Option (Nat × List Char) :=
  if attr.isPrefixOf s then
    match s.drop attr.length with
    | [] => none
    | q :: rest =>
        if isQuoteChar q then
          match stageC rest with
          | some (n, url) => some (attr.length + 1 + n, url)
          | none => none
        else none
  else none

/-- Gap between the tag literal and the attribute: a lazy dot-star, so
the attribute segment is tried at every position from the nearest on,
never across a newline. -/
def stageA (attr : List Char) : List Char → Option (Nat × List Char)
  | [] => none
  | c :: rest =>
      match stageB attr (c :: rest) with
      | some r => some r
      | none =>
          if c = '\n' then none
          else (stageA attr rest).map (fun p => (p.1 + 1, p.2))

/-- Match of one of the two fixed patterns of `apply_url_remapping`
(html.py lines 159-162) anchored at the head of `s`: the tag literal
(`<img` or `<a`), a lazy gap, `src=`/`href=`, a quoted lazy URL group,
a lazy tail up to `>`.  Returns the total match length and the captured
URL. -/
def matchAt (lit attr s : List Char) : Option (Nat × List Char) :=
  if lit.isPrefixOf s then
    (stageA attr (s.drop lit.length)).map (fun p => (lit.length + p.1, p.2))
  else none

theorem stageD_pos (s : List Char) (n : Nat) (h : stageD s = some n) : 1 ≤ n := by
  induction s generalizing n with
  | nil => exact Option.noConfusion h
  | cons c rest ih =>
      rw [stageD] at h
      split at h
      · injection h with h2
        omega
      · split at h
        · exact Option.noConfusion h
        · cases hd : stageD rest with
          | none => rw [hd] at h; exact Option.noConfusion h
          | some m =>
              rw [hd] at h
              simp only [Option.map] at h
              injection h with h2
              omega

theorem stageC_pos (s : List Char) (n : Nat) (url : List Char)
    (h : stageC s = some (n, url)) : 1 ≤ n := by
  induction s generalizing n url with
  | nil => exact Option.noConfusion h
  | cons c rest ih =>
      rw [stageC] at h
      split at h
      · cases hd : stageD rest with
        | some d =>
            rw [hd] at h
            injection h with h2
            rw [Prod.mk.injEq] at h2
            omega
        | none =>
            rw [hd] at h
            cases hc : stageC rest with
            | some p =>
                obtain ⟨m, u⟩ := p
                rw [hc] at h
                injection h with h2
                rw [Prod.mk.injEq] at h2
                omega
            | none => rw [hc] at h; exact Option.noConfusion h
      · split at h
        · exact Option.noConfusion h
        · cases hc : stageC rest with
          | some p =>
              obtain ⟨m, u⟩ := p
              rw [hc] at h
              injection h with h2
              rw [Prod.mk.injEq] at h2
              omega
          | none => rw [hc] at h; exact Option.noConfusion h

theorem stageB_pos (attr s : List Char) (n : Nat) (url : List Char)
    (h : stageB attr s = some (n, url)) : 1 ≤ n := by
  rw [stageB] at h
  split at h
  · split at h
    · exact Option.noConfusion h
    · split at h
      · cases hc : stageC _ with
        | some p =>
            obtain ⟨m, u⟩ := p
            rw [hc] at h
            injection h with h2
            rw [Prod.mk.injEq] at h2
            omega
        | none => rw [hc] at h; exact Option.noConfusion h
      · exact Option.noConfusion h
  · exact Option.noConfusion h

theorem stageA_pos (attr s : List Char) (n : Nat) (url : List Char)
    (h : stageA attr s = some (n, url)) : 1 ≤ n := by
  induction s generalizing n url with
  | nil => exact Option.noConfusion h
  | cons c rest ih =>
      rw [stageA] at h
      cases hb : stageB attr (c :: rest) with
      | some r =>
          obtain ⟨m, u⟩ := r
          rw [hb] at h
          injection h with h2
          rw [Prod.mk.injEq] at h2
          obtain ⟨hm, hu⟩ := h2
          have := stageB_pos attr (c :: rest) m u hb
          omega
      | none =>
          rw [hb] at h
          by_cases hn : c = '\n'
          · rw [if_pos hn] at h
            exact Option.noConfusion h
          · rw [if_neg hn] at h
            cases ha : stageA attr rest with
            | some p =>
                obtain ⟨m, u⟩ := p
                rw [ha] at h
                simp only [Option.map] at h
                injection h with h2
                rw [Prod.mk.injEq] at h2
                omega
            | none =>
                rw [ha] at h
                simp only [Option.map] at h
                exact Option.noConfusion h

theorem matchAt_pos (lit attr s : List Char) (n : Nat) (url : List Char)
    (h : matchAt lit attr s = some (n, url)) : 1 ≤ n := by
  rw [matchAt] at h
  split at h
  · cases ha : stageA attr (s.drop lit.length) with
    | some p =>
        obtain ⟨m, u⟩ := p
        rw [ha] at h
        injection h with h2
        rw [Prod.mk.injEq] at h2
        have := stageA_pos attr (s.drop lit.length) m u ha
        omega
    | none => rw [ha] at h; exact Option.noConfusion h
  · exact Option.noConfusion h

/-- One pass of the URL-rewriting scan for a single pattern: walk the
text left to right, try the pattern at each position; on a match hand
the whole matched text and captured URL to the mapper, substitute the
mapper's result for the match when it yields one, keep the match
otherwise, and resume after the match either way (non-overlapping
matches); a mapper failure propagates.  The fuel argument only drives
the structural recursion; each step consumes at least one character, so
`s.length` fuel always suffices. -/
def scanSubGo (lit attr : List Char) (name : String)
    (mapper : String → List Char → List Char → Except String (Option (List Char))) :
    Nat → List Char → Except String (List Char)
  | _, [] => .ok []
  | 0, s => .ok s
  | fuel + 1, c :: rest =>
      match matchAt lit attr (c :: rest) with
      | some (n, url) =>
          match mapper name ((c :: rest).take n) url with
          | .error e => .error e
          | .ok r =>
              match scanSubGo lit attr name mapper fuel ((c :: rest).drop n) with
              | .error e => .error e
              | .ok t => .ok (r.getD ((c :: rest).take n) ++ t)
      | none =>
          match scanSubGo lit attr name mapper fuel rest with
          | .error e => .error e
          | .ok t => .ok (c :: t)

theorem scanSubGo_fuel (lit attr : List Char) (name : String)
    (mapper : String → List Char → List Char → Except String (Option (List Char))) :
    ∀ (f₁ : Nat) (s : List Char) (f₂ : Nat), s.length ≤ f₁ → s.length ≤ f₂ →
      scanSubGo lit attr name mapper f₁ s = scanSubGo lit attr name mapper f₂ s := by
  intro f₁
  induction f₁ with
  | zero =>
      intro s f₂ h₁ h₂
      have hs : s = [] := List.eq_nil_of_length_eq_zero (Nat.le_zero.mp h₁)
      subst hs
      cases f₂ <;> rfl
  | succ f ih =>
      intro s f₂ h₁ h₂
      cases s with
      | nil => cases f₂ <;> rfl
      | cons c rest =>
          cases f₂ with
          | zero => simp at h₂
          | succ g =>
              simp only [List.length_cons] at h₁ h₂
              cases hm : matchAt lit attr (c :: rest) with
              | some p =>
                  obtain ⟨n, url⟩ := p
                  have hpos := matchAt_pos lit attr (c :: rest) n url hm
                  have hd₁ : ((c :: rest).drop n).length ≤ f := by
                    rw [List.length_drop]
                    simp only [List.length_cons]
                    omega
                  have hd₂ : ((c :: rest).drop n).length ≤ g := by
                    rw [List.length_drop]
                    simp only [List.length_cons]
                    omega
                  simp only [scanSubGo, hm]
                  rw [ih ((c :: rest).drop n) g hd₁ hd₂]
              | none =>
                  have hr₁ : rest.length ≤ f := by omega
                  have hr₂ : rest.length ≤ g := by omega
                  simp only [scanSubGo, hm]
                  rw [ih rest g hr₁ hr₂]

/-- Scan of the whole text with adequate fuel. -/
def scanSub (lit attr : List Char) (name : String)
    (mapper : String → List Char → List Char → Except String (Option (List Char)))
    (s : List Char) : Except String (List Char) :=
  scanSubGo lit attr name mapper s.length s

theorem scanSub_cons_none (lit attr : List Char) (name : String)
    (mapper : String → List Char → List Char → Except String (Option (List Char)))
    (c : Char) (rest : List Char)
    (hm : matchAt lit attr (c :: rest) = none) :
    scanSub lit attr name mapper (c :: rest)
      = (scanSub lit attr name mapper rest).map (fun t => c :: t) := by
  rw [scanSub, scanSub]
  simp only [List.length_cons, scanSubGo, hm]
  cases hgo : scanSubGo lit attr name mapper rest.length rest <;>
    simp [hgo, Except.map]

theorem scanSub_cons_match (lit attr : List Char) (name : String)
    (mapper : String → List Char → List Char → Except String (Option (List Char)))
    (c : Char) (rest : List Char) (n : Nat) (url : List Char)
    (hm : matchAt lit attr (c :: rest) = some (n, url)) :
    scanSub lit attr name mapper (c :: rest)
      = match mapper name ((c :: rest).take n) url with
        | .error e => .error e
        | .ok r => (scanSub lit attr name mapper ((c :: rest).drop n)).map
            (fun t => r.getD ((c :: rest).take n) ++ t) := by
  rw [scanSub]
  simp only [List.length_cons, scanSubGo, hm]
  have hpos := matchAt_pos lit attr (c :: rest) n url hm
  have hd : ((c :: rest).drop n).length ≤ rest.length := by
    simp only [List.length_drop, List.length_cons]
    omega
  rw [scanSubGo_fuel lit attr name mapper rest.length ((c :: rest).drop n)
    ((c :: rest).drop n).length hd (Nat.le_refl _)]
  cases mapper name ((c :: rest).take n) url with
  | error e => rfl
  | ok r =>
      rw [scanSub]
      cases hgo : scanSubGo lit attr name mapper ((c :: rest).drop n).length
          ((c :: rest).drop n) <;>
        simp [hgo, Except.map]

theorem matchAt_none_of_head_ne (lit attr : List Char) (l' : List Char)
    (hl : lit = '<' :: l') (c : Char) (rest : List Char) (hc : c ≠ '<') :
    matchAt lit attr (c :: rest) = none := by
  rw [matchAt, hl]
  have : ('<' :: l').isPrefixOf (c :: rest) = false := by
    simp [List.isPrefixOf]
    intro h
    exact absurd h.symm hc
  rw [this]
  simp

theorem scanSub_no_lt (lit attr : List Char) (name : String)
    (mapper : String → List Char → List Char → Except String (Option (List Char)))
    (l' : List Char) (hl : lit = '<' :: l') (s : List Char)
    (hs : '<' ∉ s) : scanSub lit attr name mapper s = .ok s := by
  induction s with
  | nil => rfl
  | cons c rest ih =>
      have hc : c ≠ '<' := fun h => hs (by simp [h])
      have hrest : '<' ∉ rest := fun h => hs (by simp [h])
      rw [scanSub_cons_none lit attr name mapper c rest
        (matchAt_none_of_head_ne lit attr l' hl c rest hc), ih hrest]
      rfl

theorem scanSub_append_no_lt (lit attr : List Char) (name : String)
    (mapper : String → List Char → List Char → Except String (Option (List Char)))
    (l' : List Char) (hl : lit = '<' :: l') (p rest : List Char)
    (hp : '<' ∉ p) :
    scanSub lit attr name mapper (p ++ rest)
      = (scanSub lit attr name mapper rest).map (fun t => p ++ t) := by
  induction p with
  | nil =>
      simp only [List.nil_append]
      cases scanSub lit attr name mapper rest <;> simp [Except.map]
  | cons a p' ih =>
      have ha : a ≠ '<' := fun h => hp (by simp [h])
      have hp' : '<' ∉ p' := fun h => hp (by simp [h])
      rw [List.cons_append, scanSub_cons_none lit attr name mapper a (p' ++ rest)
        (matchAt_none_of_head_ne lit attr l' hl a (p' ++ rest) ha), ih hp']
      cases scanSub lit attr name mapper rest <;> simp [Except.map]

/-- Lazy dot-star up to the first quote-class character of the inner
substitution pattern; returns characters consumed including the quote,
never across a newline. -/
def innerLazyQuote : List Char → Option Nat
  | [] => none
  | c :: rest =>
      if isQuoteChar c then some 1
      else if c = '\n' then none
      else (innerLazyQuote rest).map (fun n => n + 1)

/-- One alternative of the inner pattern anchored at the head of `s`:
the attribute word, an equals sign, an opening quote-class character,
then the lazy run up to a closing quote-class character. -/
def innerTry (attr s : List Char) : Option Nat :=
  let pat := attr ++ ['=']
  if pat.isPrefixOf s then
    match s.drop pat.length with
    | [] => none
    | q :: rest =>
        if isQuoteChar q then
          (innerLazyQuote rest).map (fun n => pat.length + 1 + n)
        else none
  else none

/-- Match of the inner substitution pattern of `urlmapper_proxy`
(html.py line 170) anchored at the head of `s`: the alternation tries
`src` first, then `href`; returns the match length and the attribute
word that matched (the backreferenced group 1). -/
def innerMatchAt (s : List Char) : Option (Nat × List Char) :=
  match innerTry "src".data s with
  | some n => some (n, "src".data)
  | none =>
      match innerTry "href".data s with
      | some n => some (n, "href".data)
      | none => none

/-- Global inner substitution of html.py line 170: every occurrence of
the inner pattern inside the matched tag text is replaced by the
attribute word, an equals sign, and the new URL in double quotes.  Fuel
drives the structural recursion; each step consumes at least one
character. -/
def reSubInnerGo (newUrl : List Char) : Nat → List Char → List Char
  | _, [] => []
  | 0, s => s
  | fuel + 1, c :: rest =>
      match innerMatchAt (c :: rest) with
      | some (n, attr) =>
          attr ++ ['=', '"'] ++ newUrl ++ ['"']
            ++ reSubInnerGo newUrl fuel ((c :: rest).drop n)
      | none => c :: reSubInnerGo newUrl fuel rest

/-- Global inner substitution with adequate fuel. -/
def reSubInner (newUrl s : List Char) : List Char :=
  reSubInnerGo newUrl s.length s

/-- Loop of `urlmapper_proxy` (html.py lines 165-168): mappers are
called in order until the first one returns a value; when every mapper
declines the loop leaves `new_url` holding the last `None`. -/
def firstMapped (urlmappers : List (String → String → Option String))
    (name url : String) : Option String :=
  match urlmappers with
  | [] => none
  | m :: rest =>
      match m name url with
      | some u => some u
      | none => firstMapped rest name url

/-- `urlmapper_proxy` (html.py lines 164-171): with an empty mapper list
the loop body never runs, so the read of `new_url` on line 167 raises
`UnboundLocalError`; otherwise the first mapper result (if any) is
substituted into the whole matched tag text by the inner global
substitution, and `None` means "keep the match". -/
def urlmapper_proxy (urlmappers : List (String → String → Option String))
    (name : String) (whole url : List Char) :
    Except String (Option (List Char)) :=
  match urlmappers with
  | [] => .error "UnboundLocalError: local variable new_url referenced before assignment"
  | _ :: _ =>
      match firstMapped urlmappers name ⟨url⟩ with
      | some newUrl => .ok (some (reSubInner newUrl.data whole))
      | none => .ok none

/-- Modelled from the spec: `SubstitutionMapper` (from
`knowledge_repo.mapping`, which is not under src/) scans the HTML for
the `img` and `a` pattern occurrences and for each match tries the
mapper functions in order, substituting a returned replacement for the
match and keeping the match otherwise; failures raised inside a mapper
propagate.  The patterns are applied in their dict order: `img`, then
`a`. -/
def substitutionMapperApply
    (mapper : String → List Char → List Char → Except String (Option (List Char)))
    (html : List Char) : Except String (List Char) :=
  match scanSub "<img".data "src=".data "img" mapper html with
  | .error e => .error e
  | .ok h₁ => scanSub "<a".data "href=".data "a" mapper h₁

/-- `HTMLConverter.apply_url_remapping` (html.py lines 158-173). -/
def apply_url_remapping (urlmappers : List (String → String → Option String))
    (html : String) : Except String String :=
  match substitutionMapperApply (urlmapper_proxy urlmappers) html.data with
  | .error e => .error e
  | .ok l => .ok ⟨l⟩

/-- `HTMLConverter.to_string` (html.py lines 136-156).  The markdown
engine is abstract: `mdConvert` renders the post body and `mdTldr` is
the engine variant used inside `render_headers` for the tldr field (it
is configured without the indented-output extension).  The local mapper
list is the caller's list with the image-embedding mapper prepended when
`images_base64_encode` is set; a post with a `proxy` header
short-circuits to the fixed link-plus-iframe snippet before any header
rendering, markdown conversion, or URL remapping. -/
def to_string (mdConvert mdTldr : String → String)
    (headers : List (String × HVal)) (kpRaw : String)
    (kpImages : List (String × List Nat))
    (skip_headers images_base64_encode : Bool)
    (urlmappers : List (String → String → Option String)) :
    Except String String :=
  let localMappers := if images_base64_encode
    then (fun t u => base64_encode_image_mapper kpImages t u) :: urlmappers
    else urlmappers
  match lookupH "proxy" headers with
  | some v =>
      match v with
      | .str p =>
          .ok ("<a href=\"" ++ pyStrip p ++ "\">Linked Post</a>\n<iframe width=100% height=800 src=\""
            ++ pyStrip p ++ "\"></iframe>")
      | _ => .error "AttributeError: strip"
  | none =>
      match (if skip_headers then Except.ok ("", headers)
        else render_headers mdTldr headers) with
      | .error e => .error e
      | .ok (hdr, _) => apply_url_remapping localMappers (hdr ++ mdConvert kpRaw)

/-- C1: a post whose headers contain the key `proxy` (with a string
value, as the source's `.strip()` call assumes) renders to exactly the
fixed link-plus-iframe snippet around the whitespace-stripped proxy
value, for every markdown body, every engine behaviour, every
skip-headers and embedding flag, and every mapper list: no markdown
processing, header rendering, or URL remapping takes part. -/
theorem to_string_proxy_short_circuit (mdConvert mdTldr : String → String)
    (headers : List (String × HVal)) (kpRaw : String)
    (kpImages : List (String × List Nat))
    (skip_headers images_base64_encode : Bool)
    (urlmappers : List (String → String → Option String)) (p : String)
    (h : lookupH "proxy" headers = some (.str p)) :
    to_string mdConvert mdTldr headers kpRaw kpImages skip_headers
        images_base64_encode urlmappers
      = .ok ("<a href=\"" ++ pyStrip p
          ++ "\">Linked Post</a>\n<iframe width=100% height=800 src=\""
          ++ pyStrip p ++ "\"></iframe>") := by
  simp only [to_string, h]

/-- Witness for C1 at a concrete proxy post with body content and both
flag settings represented. -/
theorem to_string_proxy_short_circuit_witness :
    to_string (fun s => s) (fun s => s) [("proxy", HVal.str " http://x ")]
        "# body" [] false true []
      = .ok ("<a href=\"http://x\">Linked Post</a>\n<iframe width=100% height=800 src=\"http://x\"></iframe>") := by
  rw [to_string_proxy_short_circuit (fun s => s) (fun s => s)
    [("proxy", HVal.str " http://x ")] "# body" [] false true []
    " http://x " (by decide)]
  rfl

/-- C3: calling the URL remapping with an empty mapper list is not a
no-op: as soon as the HTML contains one `img` or `a` match the loop of
`urlmapper_proxy` never binds `new_url` and the read on line 167 of
html.py raises `UnboundLocalError` instead of returning the HTML
unchanged.  This theorem evaluates the code at the failing input. -/
theorem apply_url_remapping_empty_mappers_raises :
    apply_url_remapping [] "<img src=\"u\">"
      = .error "UnboundLocalError: local variable new_url referenced before assignment" := by
  rfl

/-- Mapper used by the C5 theorems: rewrite the URL `u` to `v`, decline
everything else. -/
def c5mapper : String → String → Option String :=
  fun _ url => if url = "u" then some "v" else none

/-- Matched `a` tag used by the C5 theorems, holding a `data-src`
attribute next to its `href`. -/
def c5tag : List Char := "<a href=\"u\" data-src=\"w\">".data

/-- The C5 tag after remapping: the inner global substitution rewrote
the `src=\"w\"` inside `data-src=\"w\"` as well. -/
def c5tagAfter : List Char := "<a href=\"v\" data-src=\"v\">".data

/-- C5 counterexample: rewriting the matched `a` tag also rewrites the
value of the unrelated `data-src` attribute (the inner substitution on
the matched text has no word boundary before `src`), so not all other
attributes are byte-identical. -/
theorem apply_url_remapping_other_attr_cex :
    apply_url_remapping [c5mapper] "<a href=\"u\" data-src=\"w\">"
      = .ok "<a href=\"v\" data-src=\"v\">"
    ∧ ("<a href=\"v\" data-src=\"v\">" : String)
        ≠ "<a href=\"v\" data-src=\"w\">" :=
  ⟨rfl, by decide⟩

/-- Specification of one URL-rewriting pass, in the words of the
amended claim: a character at which the pattern does not match is copied
verbatim (markup outside matched tags is byte-identical); each match
contributes, for the whole matched text, the inner global substitution
of the first mapper's replacement URL when some mapper returns one, and
the matched text itself, byte-identical, when every mapper declines;
scanning resumes after the match. -/
inductive ScanRel (lit attr : List Char) (name : String)
    (urlmappers : List (String → String → Option String)) :
    List Char → List Char → Prop
  | nil : ScanRel lit attr name urlmappers [] []
  | keep (c : Char) (s t : List Char) :
      matchAt lit attr (c :: s) = none →
      ScanRel lit attr name urlmappers s t →
      ScanRel lit attr name urlmappers (c :: s) (c :: t)
  | replaced (s t : List Char) (n : Nat) (url : List Char) (newUrl : String) :
      matchAt lit attr s = some (n, url) →
      firstMapped urlmappers name ⟨url⟩ = some newUrl →
      ScanRel lit attr name urlmappers (s.drop n) t →
      ScanRel lit attr name urlmappers s
        (reSubInner newUrl.data (s.take n) ++ t)
  | kept (s t : List Char) (n : Nat) (url : List Char) :
      matchAt lit attr s = some (n, url) →
      firstMapped urlmappers name ⟨url⟩ = none →
      ScanRel lit attr name urlmappers (s.drop n) t →
      ScanRel lit attr name urlmappers s (s.take n ++ t)

theorem scanSub_sound (lit attr : List Char) (name : String)
    (urlmappers : List (String → String → Option String))
    (hne : urlmappers ≠ []) :
    ∀ (k : Nat) (s t : List Char), s.length ≤ k →
      scanSub lit attr name (urlmapper_proxy urlmappers) s = .ok t →
      ScanRel lit attr name urlmappers s t := by
  obtain ⟨m, ms, rfl⟩ : ∃ m ms, urlmappers = m :: ms := by
    cases urlmappers with
    | nil => exact absurd rfl hne
    | cons a b => exact ⟨a, b, rfl⟩
  intro k
  induction k with
  | zero =>
      intro s t hlen hok
      have hs : s = [] := List.eq_nil_of_length_eq_zero (Nat.le_zero.mp hlen)
      subst hs
      injection hok with h
      subst h
      exact ScanRel.nil
  | succ k ih =>
      intro s t hlen hok
      cases s with
      | nil =>
          injection hok with h
          subst h
          exact ScanRel.nil
      | cons c rest =>
          cases hm : matchAt lit attr (c :: rest) with
          | none =>
              rw [scanSub_cons_none lit attr name _ c rest hm] at hok
              cases hrest : scanSub lit attr name (urlmapper_proxy (m :: ms))
                  rest with
              | error e =>
                  rw [hrest] at hok
                  simp [Except.map] at hok
              | ok t' =>
                  rw [hrest] at hok
                  simp only [Except.map] at hok
                  injection hok with h
                  subst h
                  have hlen' : rest.length ≤ k := by
                    simp only [List.length_cons] at hlen
                    omega
                  exact ScanRel.keep c rest t' hm (ih rest t' hlen' hrest)
          | some p =>
              obtain ⟨n, url⟩ := p
              have hpos := matchAt_pos lit attr (c :: rest) n url hm
              rw [scanSub_cons_match lit attr name _ c rest n url hm] at hok
              have hlen' : ((c :: rest).drop n).length ≤ k := by
                rw [List.length_drop]
                simp only [List.length_cons] at hlen
                simp only [List.length_cons]
                omega
              cases hfm : firstMapped (m :: ms) name ⟨url⟩ with
              | some nu =>
                  simp only [urlmapper_proxy, hfm] at hok
                  cases hdrop : scanSub lit attr name
                      (urlmapper_proxy (m :: ms)) ((c :: rest).drop n) with
                  | error e =>
                      rw [hdrop] at hok
                      simp [Except.map] at hok
                  | ok t' =>
                      rw [hdrop] at hok
                      simp only [Except.map, Option.getD_some] at hok
                      injection hok with h
                      subst h
                      exact ScanRel.replaced (c :: rest) t' n url nu hm hfm
                        (ih _ t' hlen' hdrop)
              | none =>
                  simp only [urlmapper_proxy, hfm] at hok
                  cases hdrop : scanSub lit attr name
                      (urlmapper_proxy (m :: ms)) ((c :: rest).drop n) with
                  | error e =>
                      rw [hdrop] at hok
                      simp [Except.map] at hok
                  | ok t' =>
                      rw [hdrop] at hok
                      simp only [Except.map] at hok
                      injection hok with h
                      subst h
                      exact ScanRel.kept (c :: rest) t' n url hm hfm
                        (ih _ t' hlen' hdrop)

/-- C5 amended: for every non-empty mapper list (the empty list raises,
see C3) and every HTML input, a successful remapping factors as the
`img` pass followed by the `a` pass, where each pass copies every
character at which its pattern does not match byte-identically (markup
outside matched tags is untouched) and replaces each matched tag, as a
whole, by the inner global substitution of the first mapper's
replacement URL over the matched text — the substitution that rewrites
every `(src|href)=<quoted value>` occurrence, attribute names merely
ending in `src`/`href` such as `data-src` included — keeping the match
byte-identical when every mapper declines. -/
theorem apply_url_remapping_frame_amended
    (urlmappers : List (String → String → Option String))
    (hne : urlmappers ≠ []) (html out : String)
    (h : apply_url_remapping urlmappers html = .ok out) :
    ∃ mid : List Char,
      ScanRel "<img".data "src=".data "img" urlmappers html.data mid
      ∧ ScanRel "<a".data "href=".data "a" urlmappers mid out.data := by
  unfold apply_url_remapping substitutionMapperApply at h
  cases h1 : scanSub "<img".data "src=".data "img" (urlmapper_proxy urlmappers)
      html.data with
  | error e =>
      rw [h1] at h
      simp at h
  | ok mid =>
      rw [h1] at h
      have h' : (match scanSub "<a".data "href=".data "a"
          (urlmapper_proxy urlmappers) mid with
        | Except.error e => Except.error e
        | Except.ok l => Except.ok (String.mk l)) = Except.ok out := h
      cases h2 : scanSub "<a".data "href=".data "a" (urlmapper_proxy urlmappers)
          mid with
      | error e =>
          rw [h2] at h'
          simp at h'
      | ok l =>
          rw [h2] at h'
          have h'' : Except.ok (String.mk l) = Except.ok out := h'
          injection h'' with h3
          have hout : out.data = l := by rw [← h3]
          refine ⟨mid,
            scanSub_sound "<img".data "src=".data "img" urlmappers hne
              html.data.length html.data mid (Nat.le_refl _) h1, ?_⟩
          rw [hout]
          exact scanSub_sound "<a".data "href=".data "a" urlmappers hne
            mid.length mid l (Nat.le_refl _) h2

/-- Witness for the amended C5 theorem at the concrete tag and mapper of
the counterexample. -/
theorem apply_url_remapping_frame_amended_witness :
    ∃ mid : List Char,
      ScanRel "<img".data "src=".data "img" [c5mapper]
        (String.mk c5tag).data mid
      ∧ ScanRel "<a".data "href=".data "a" [c5mapper] mid
        (String.mk c5tagAfter).data :=
  apply_url_remapping_frame_amended [c5mapper] (List.cons_ne_nil _ _)
    ⟨c5tag⟩ ⟨c5tagAfter⟩ rfl

/-- Substring test on character lists (Python `sub in s`). -/
def isSubLC (sub : List Char) : List Char → Bool
  | [] => sub.isEmpty
  | c :: rest => sub.isPrefixOf (c :: rest) || isSubLC sub rest

/-- Python substring containment `sub in s` on strings. -/
def pyContains (sub s : String) : Bool := isSubLC sub.data s.data

/-- Python `text.split(chr(10))` on character lists. -/
def splitNl : List Char → List (List Char)
  | [] => [[]]
  | c :: rest =>
      match splitNl rest with
      | [] => [[c]]
      | h :: t => if c = '\n' then [] :: h :: t else (c :: h) :: t

/-- Python `text.split(chr(10))` on strings. -/
def pySplitNl (s : String) : List String := (splitNl s.data).map (fun l => ⟨l⟩)

/-- Python `chr(10).join(lines)`. -/
def pyJoinNl (ls : List String) : String := String.intercalate "\n" ls

/-- Loop of the markdown library's `BlockProcessor.detab`: collect lines
while each either starts with a tab's worth of spaces (detabbed) or is
blank (kept empty); stop at the first other line.  Returns the collected
lines and the remaining ones. -/
def detabGo (tabLength : Nat) : List String → List String × List String
  | [] => ([], [])
  | line :: rest =>
      if (List.replicate tabLength ' ').isPrefixOf line.data then
        let p := detabGo tabLength rest
        (String.mk (line.data.drop tabLength) :: p.1, p.2)
      else if pyStrip line = "" then
        let p := detabGo tabLength rest
        ("" :: p.1, p.2)
      else ([], line :: rest)

/-- The markdown library's `BlockProcessor.detab` (an external
collaborator the processor calls on line 47 of html.py): removes one
tab's worth of indentation from the leading indented lines of a block
and returns them joined, together with the joined remaining lines. -/
def detab (tabLength : Nat) (text : String) : String × String :=
  let parts := detabGo tabLength (pySplitNl text)
  (pyJoinNl parts.1, pyJoinNl parts.2)

/-- Element-tree node as the processor sees it: tag, optional `class`
attribute, text, and whether the text is an `AtomicString` (an atomic
text is skipped by inline processing, so its markup is escaped on
serialisation; a plain text containing raw HTML is emitted literally
through the engine's raw-HTML stash). -/
structure XElem where
  tag : String
  cls : Option String
  text : String
  atomic : Bool
deriving DecidableEq

/-- Raw-HTML token test of html.py lines 50-52. -/
def hasHtmlToken (block : String) : Bool :=
  pyContains "<div " block || pyContains "</" block || pyContains "<span " block

/-- New `code-output` div created by html.py line 65, with the `pre`
class added by lines 68-69 when the block does not look like raw HTML
(the `pre`-containment check against the fresh `code-output` class is
kept from the source). -/
def mkNewOut (tok : Bool) (block : String) : XElem :=
  let cls0 := "code-output"
  let cls1 := if !tok && !(pyContains "pre" cls0)
    then some (cls0 ++ " pre") else some cls0
  ⟨"div", cls1, block ++ "\n", !tok⟩

/-- `IndentsAsCellOutputProcessor.run` (html.py lines 43-77).  The
parser pops the first block (`block0`) and passes the remaining list;
`children` are the parent's children.  A last child with tag `div`
absorbs the new block: the texts are joined with a newline (the stored
text already carries a trailing newline, which reconstructs the blank
line removed by the block split), the raw-HTML flag of the NEW block is
ANDed with the sibling text being non-atomic, and `pre` is added to the
class when the result is not raw HTML and `pre` is not already a
substring of the class.  Otherwise a fresh `code-output` div is
appended.  A non-empty remainder of the detab is pushed back onto the
block list. -/
def indentsRun (tabLength : Nat) (children : List XElem)
    (block0 : String) (blocks : List String) : List XElem × List String :=
  let p := detab tabLength block0
  let block := pyRstrip p.1
  let theRest := p.2
  let tok := hasHtmlToken block
  let blocks' := if theRest ≠ "" then theRest :: blocks else blocks
  match children.getLast? with
  | some sib =>
      if sib.tag = "div" then
        let blockIsHtml := tok && !sib.atomic
        let merged := sib.text ++ "\n" ++ block
        let cls1 := if !blockIsHtml && !(pyContains "pre" (sib.cls.getD "code-output"))
          then some ((sib.cls.getD "") ++ " pre")
          else sib.cls
        (children.dropLast ++ [⟨sib.tag, cls1, merged ++ "\n", !blockIsHtml⟩],
          blocks')
      else (children ++ [mkNewOut tok block], blocks')
  | none => (children ++ [mkNewOut tok block], blocks')

/-- `IndentsAsCellOutputProcessor.test` (html.py lines 40-41). -/
def indentsTest (tabLength : Nat) (block : String) : Bool :=
  (List.replicate tabLength ' ').isPrefixOf block.data

/-- C6 counterexample: two indented blocks separated by a blank line do
merge into a single `code-output` div, but its text is the first block,
a blank line (two newlines), the second block and a trailing newline —
not the two blocks joined by a single newline. -/
theorem indents_merge_cex :
    (indentsRun 4 (indentsRun 4 [] "    a" ["    b"]).1 "    b" []).1
      = [⟨"div", some "code-output pre", "a\n\nb\n", true⟩]
    ∧ ("a\n\nb\n" : String) ≠ "a" ++ "\n" ++ "b" :=
  ⟨by decide, by decide⟩

/-- C7 counterexample: the raw-HTML token check is applied to the newly
added block only, so after a first block containing a closing-tag token
is merged with a plain second block, the merged text still contains the
token yet the element is inserted escaped (atomic) and its class gains
`pre`. -/
theorem indents_html_token_cex :
    (indentsRun 4 (indentsRun 4 [] "    </x>" ["    b"]).1 "    b" []).1
      = [⟨"div", some "code-output pre", "</x>\n\nb\n", true⟩]
    ∧ pyContains "</" "</x>\n\nb\n" = true :=
  ⟨by decide, by decide⟩

/-- C6 amended: two consecutive indented blocks merge into one div, but
its text is the first detabbed block, a blank line (the stored trailing
newline plus the join newline, reconstructing the blank line removed by
the block split), the second detabbed block, and a trailing newline. -/
theorem indents_merge_amended (tabLength : Nat) (cs : List XElem)
    (b₁ b₂ d₁ d₂ : String) (bs bs₂ : List String)
    (h₁ : detab tabLength b₁ = (d₁, ""))
    (h₂ : detab tabLength b₂ = (d₂, ""))
    (hcs : ∀ e, cs.getLast? = some e → e.tag ≠ "div") :
    ∃ e : XElem,
      (indentsRun tabLength (indentsRun tabLength cs b₁ bs).1 b₂ bs₂).1
        = cs ++ [e]
      ∧ e.tag = "div"
      ∧ e.text = pyRstrip d₁ ++ "\n\n" ++ pyRstrip d₂ ++ "\n" := by
  have hrun₁ : (indentsRun tabLength cs b₁ bs).1
      = cs ++ [mkNewOut (hasHtmlToken (pyRstrip d₁)) (pyRstrip d₁)] := by
    rw [indentsRun, h₁]
    cases hlast : cs.getLast? with
    | none => simp
    | some e =>
        have hne : e.tag ≠ "div" := hcs e hlast
        simp [hne]
  rw [hrun₁, indentsRun, h₂]
  simp only [List.getLast?_concat]
  rw [if_pos (show (mkNewOut (hasHtmlToken (pyRstrip d₁)) (pyRstrip d₁)).tag
    = "div" by rw [mkNewOut])]
  simp only [List.dropLast_concat]
  refine ⟨_, rfl, rfl, ?_⟩
  show (mkNewOut (hasHtmlToken (pyRstrip d₁)) (pyRstrip d₁)).text
      ++ "\n" ++ pyRstrip d₂ ++ "\n"
    = pyRstrip d₁ ++ "\n\n" ++ pyRstrip d₂ ++ "\n"
  rw [show (mkNewOut (hasHtmlToken (pyRstrip d₁)) (pyRstrip d₁)).text
    = pyRstrip d₁ ++ "\n" by rw [mkNewOut]]
  rw [String.append_assoc (pyRstrip d₁) "\n" "\n"]
  rfl

/-- Witness for the amended C6 theorem at the concrete pair of indented
blocks. -/
theorem indents_merge_amended_witness :
    ∃ e : XElem,
      (indentsRun 4 (indentsRun 4 [] "    a" ["    b"]).1 "    b" []).1
        = [] ++ [e]
      ∧ e.tag = "div"
      ∧ e.text = pyRstrip "a" ++ "\n\n" ++ pyRstrip "b" ++ "\n" :=
  indents_merge_amended 4 [] "    a" "    b" "a" "b" ["    b"] []
    (by decide) (by decide) (by intro e h; simp at h)

/-- C7 amended: for a merged block, the raw-HTML token check is applied
to the newly added (detabbed, right-stripped) block only, and the merged
text is inserted as literal markup only when additionally the existing
div's text was itself literal (not atomic); otherwise it is inserted
escaped and the class gains `pre` unless `pre` is already a substring of
it. -/
theorem indents_html_flag_amended (tabLength : Nat) (cs : List XElem)
    (sib : XElem) (b d : String) (bs : List String)
    (hd : detab tabLength b = (d, ""))
    (hsib : sib.tag = "div") :
    ∃ e : XElem, (indentsRun tabLength (cs ++ [sib]) b bs).1 = cs ++ [e]
    ∧ e.text = sib.text ++ "\n" ++ pyRstrip d ++ "\n"
    ∧ (hasHtmlToken (pyRstrip d) = true → sib.atomic = false →
        e.atomic = false ∧ e.cls = sib.cls)
    ∧ (hasHtmlToken (pyRstrip d) = false ∨ sib.atomic = true →
        e.atomic = true
        ∧ (pyContains "pre" (sib.cls.getD "code-output") = false →
            e.cls = some ((sib.cls.getD "") ++ " pre"))
        ∧ (pyContains "pre" (sib.cls.getD "code-output") = true →
            e.cls = sib.cls)) := by
  rw [indentsRun, hd]
  simp only [List.getLast?_concat]
  rw [if_pos hsib]
  simp only [List.dropLast_concat]
  refine ⟨_, rfl, rfl, ?_, ?_⟩
  · intro htok hat
    constructor
    · show (!(hasHtmlToken (pyRstrip d) && !sib.atomic)) = false
      rw [htok, hat]
      rfl
    · show (if !(hasHtmlToken (pyRstrip d) && !sib.atomic)
          && !(pyContains "pre" (sib.cls.getD "code-output"))
        then some ((sib.cls.getD "") ++ " pre") else sib.cls) = sib.cls
      rw [htok, hat]
      rfl
  · intro hor
    have hbih : (hasHtmlToken (pyRstrip d) && !sib.atomic) = false := by
      rcases hor with h | h
      · rw [h]
        rfl
      · rw [h]
        simp
    refine ⟨?_, ?_, ?_⟩
    · show (!(hasHtmlToken (pyRstrip d) && !sib.atomic)) = true
      rw [hbih]
      rfl
    · intro hpre
      show (if !(hasHtmlToken (pyRstrip d) && !sib.atomic)
          && !(pyContains "pre" (sib.cls.getD "code-output"))
        then some ((sib.cls.getD "") ++ " pre") else sib.cls)
          = some ((sib.cls.getD "") ++ " pre")
      rw [hbih, hpre]
      rfl
    · intro hpre
      show (if !(hasHtmlToken (pyRstrip d) && !sib.atomic)
          && !(pyContains "pre" (sib.cls.getD "code-output"))
        then some ((sib.cls.getD "") ++ " pre") else sib.cls) = sib.cls
      rw [hbih, hpre]
      rfl

/-- Witness for the amended C7 theorem at the concrete merge of a plain
block into a div whose text holds a raw-HTML token. -/
theorem indents_html_flag_amended_witness :
    ∃ e : XElem,
      (indentsRun 4
          ([] ++ [(⟨"div", some "code-output", "</x>\n", false⟩ : XElem)])
          "    b" []).1
        = [] ++ [e]
      ∧ e.text = "</x>\n" ++ "\n" ++ pyRstrip "b" ++ "\n"
      ∧ (hasHtmlToken (pyRstrip "b") = true → false = false →
          e.atomic = false ∧ e.cls = some "code-output")
      ∧ (hasHtmlToken (pyRstrip "b") = false ∨ false = true →
          e.atomic = true
          ∧ (pyContains "pre" ((some "code-output").getD "code-output") = false →
              e.cls = some (((some "code-output").getD "") ++ " pre"))
          ∧ (pyContains "pre" ((some "code-output").getD "code-output") = true →
              e.cls = some "code-output")) :=
  indents_html_flag_amended 4 []
    ⟨"div", some "code-output", "</x>\n", false⟩ "    b" "b" [] (by decide) rfl

/-- Content-and-closing part of the MathJax inline pattern: the lazy
non-empty content capture extends one character at a time until the
backreferenced marker follows (shortest capture first, any character
allowed, as the engine compiles inline patterns with DOTALL). -/
def mathClose (marker : List Char) : List Char → Option (List Char)
  | [] => none
  | c :: rest =>
      if marker.isPrefixOf rest then some [c]
      else
        match mathClose marker rest with
        | some ct => some (c :: ct)
        | none => none

/-- Match of the MathJax pattern of html.py line 113 anchored at the
head of `s`: no backslash immediately before, an opening `$` with a
greedily taken optional second `$` (backtracking to the single-dollar
marker when the double-dollar close cannot be completed), the lazy
content, then the closing marker equal to the opening one via the
backreference.  Returns the marker (group 2) and content (group 3). -/
def mathMatchHere : Bool → List Char → Option (List Char × List Char)
  | true, _ => none
  | false, [] => none
  | false, [_] => none
  | false, c :: c₂ :: rest₂ =>
      if c = '$' then
        if c₂ = '$' then
          match mathClose ['$', '$'] rest₂ with
          | some ct => some (['$', '$'], ct)
          | none =>
              match mathClose ['$'] (c₂ :: rest₂) with
              | some ct => some (['$'], ct)
              | none => none
        else
          match mathClose ['$'] (c₂ :: rest₂) with
          | some ct => some (['$'], ct)
          | none => none
      else none

/-- `MathJaxPattern.handleMatch` (html.py lines 115-118): an element
with tag `mathjax` whose text is group 2, group 3 and group 2 again as
an `AtomicString` (protected from further inline processing). -/
def mathjaxHandleMatch (marker content : String) : XElem :=
  ⟨"mathjax", none, marker ++ content ++ marker, true⟩

/-- `md.inlinePatterns.add(name, pattern, positionBeforeTarget)` on the
ordered registry of inline pattern names: insert just before the target
(the engine raises when the target is missing; the theorems only use a
registry containing it). -/
def inlinePatternsAddBefore (names : List String) (nm tgt : String) :
    List String :=
  match names with
  | [] => []
  | x :: rest =>
      if x = tgt then nm :: x :: rest
      else x :: inlinePatternsAddBefore rest nm tgt

/-- `MathJaxExtension.extendMarkdown` (html.py lines 121-124): register
the `mathjax` pattern before the `escape` pattern. -/
def mathjaxExtendMarkdown (inlineNames : List String) : List String :=
  inlinePatternsAddBefore inlineNames "mathjax" "escape"

theorem mathClose_spec (marker : List Char) (s ct : List Char)
    (h : mathClose marker s = some ct) :
    ct ≠ [] ∧ (ct ++ marker).isPrefixOf s = true := by
  induction s generalizing ct with
  | nil => exact Option.noConfusion h
  | cons c rest ih =>
      rw [mathClose] at h
      split at h
      · injection h with h2
        subst h2
        refine ⟨by simp, ?_⟩
        simp only [List.cons_append, List.nil_append, List.isPrefixOf]
        simp [*]
      · cases hc : mathClose marker rest with
        | some ct' =>
            rw [hc] at h
            injection h with h2
            subst h2
            obtain ⟨hne, hpre⟩ := ih ct' hc
            refine ⟨by simp, ?_⟩
            simp only [List.cons_append, List.isPrefixOf]
            simp [hpre]
        | none => rw [hc] at h; exact Option.noConfusion h

theorem inlinePatternsAddBefore_spec (l₁ l₂ : List String)
    (h : "escape" ∉ l₁) :
    inlinePatternsAddBefore (l₁ ++ "escape" :: l₂) "mathjax" "escape"
      = l₁ ++ "mathjax" :: "escape" :: l₂ := by
  induction l₁ with
  | nil => simp [inlinePatternsAddBefore]
  | cons x rest ih =>
      have hx : x ≠ "escape" := fun hh => h (by simp [hh])
      have hrest : "escape" ∉ rest := fun hh => h (by simp [hh])
      simp only [List.cons_append, inlinePatternsAddBefore, if_neg hx]
      rw [show rest.append ("escape" :: l₂) = rest ++ "escape" :: l₂ from rfl,
        ih hrest]

/-- C8: an inline span matched by the MathJax pattern — non-escaped
matching `$` or `$$` markers around non-empty content — is emitted as an
atomic `mathjax` node whose text is exactly the opening marker, the
captured content, and the closing marker, reproducing the matched span
verbatim; and the extension registers the pattern immediately before
the escape-handling inline pattern. -/
theorem mathjax_verbatim_before_escape (s marker content : List Char)
    (hm : mathMatchHere false s = some (marker, content)) :
    (marker = "$".data ∨ marker = "$$".data)
    ∧ content ≠ []
    ∧ (marker ++ content ++ marker).isPrefixOf s = true
    ∧ (mathjaxHandleMatch ⟨marker⟩ ⟨content⟩).text.data
        = marker ++ content ++ marker
    ∧ (mathjaxHandleMatch ⟨marker⟩ ⟨content⟩).atomic = true
    ∧ (mathjaxHandleMatch ⟨marker⟩ ⟨content⟩).tag = "mathjax"
    ∧ ∀ l₁ l₂ : List String, "escape" ∉ l₁ →
        mathjaxExtendMarkdown (l₁ ++ "escape" :: l₂)
          = l₁ ++ "mathjax" :: "escape" :: l₂ := by
  have hmain : (marker = "$".data ∨ marker = "$$".data)
      ∧ content ≠ [] ∧ (marker ++ content ++ marker).isPrefixOf s = true := by
    cases s with
    | nil => exact Option.noConfusion hm
    | cons c rest =>
        cases rest with
        | nil => exact Option.noConfusion hm
        | cons c₂ rest₂ =>
          simp only [mathMatchHere] at hm
          by_cases hc : c = '$'
          · rw [if_pos hc] at hm
            subst hc
            by_cases hc₂ : c₂ = '$'
            · rw [if_pos hc₂] at hm
              subst hc₂
              cases hcl : mathClose ['$', '$'] rest₂ with
              | some ct =>
                  rw [hcl] at hm
                  injection hm with h2
                  rw [Prod.mk.injEq] at h2
                  obtain ⟨hmk, hct⟩ := h2
                  subst hmk
                  subst hct
                  obtain ⟨hne, hpre⟩ := mathClose_spec _ _ _ hcl
                  refine ⟨Or.inr rfl, hne, ?_⟩
                  simp only [List.cons_append, List.nil_append,
                    List.append_assoc, List.isPrefixOf]
                  simp [hpre]
              | none =>
                  rw [hcl] at hm
                  cases hcl₁ : mathClose ['$'] ('$' :: rest₂) with
                  | some ct =>
                      rw [hcl₁] at hm
                      injection hm with h2
                      rw [Prod.mk.injEq] at h2
                      obtain ⟨hmk, hct⟩ := h2
                      subst hmk
                      subst hct
                      obtain ⟨hne, hpre⟩ := mathClose_spec _ _ _ hcl₁
                      refine ⟨Or.inl rfl, hne, ?_⟩
                      simp only [List.cons_append, List.nil_append,
                        List.append_assoc, List.isPrefixOf]
                      simp [hpre]
                  | none => rw [hcl₁] at hm; exact Option.noConfusion hm
            · rw [if_neg hc₂] at hm
              cases hcl : mathClose ['$'] (c₂ :: rest₂) with
              | some ct =>
                  rw [hcl] at hm
                  injection hm with h2
                  rw [Prod.mk.injEq] at h2
                  obtain ⟨hmk, hct⟩ := h2
                  subst hmk
                  subst hct
                  obtain ⟨hne, hpre⟩ := mathClose_spec _ _ _ hcl
                  refine ⟨Or.inl rfl, hne, ?_⟩
                  simp only [List.cons_append, List.nil_append,
                    List.append_assoc, List.isPrefixOf]
                  simp [hpre]
              | none => rw [hcl] at hm; exact Option.noConfusion hm
          · rw [if_neg hc] at hm
            exact Option.noConfusion hm
  refine ⟨hmain.1, hmain.2.1, hmain.2.2, ?_, rfl, rfl, ?_⟩
  · show (String.mk marker ++ String.mk content ++ String.mk marker).data
      = marker ++ content ++ marker
    simp [String.data_append]
  · intro l₁ l₂ h
    exact inlinePatternsAddBefore_spec l₁ l₂ h

/-- Witness for C8 at the concrete span of a dollar-delimited `x` inside
a longer text, and a concrete pattern registry. -/
theorem mathjax_verbatim_before_escape_witness :
    (("$".data : List Char) = "$".data ∨ ("$".data : List Char) = "$$".data)
    ∧ ("x".data : List Char) ≠ []
    ∧ (("$".data ++ "x".data ++ "$".data).isPrefixOf "$x$+".data) = true
    ∧ (mathjaxHandleMatch ⟨"$".data⟩ ⟨"x".data⟩).text.data
        = "$".data ++ "x".data ++ "$".data
    ∧ (mathjaxHandleMatch ⟨"$".data⟩ ⟨"x".data⟩).atomic = true
    ∧ (mathjaxHandleMatch ⟨"$".data⟩ ⟨"x".data⟩).tag = "mathjax"
    ∧ mathjaxExtendMarkdown (["backquote"] ++ "escape" :: ["strong"])
        = ["backquote"] ++ "mathjax" :: "escape" :: ["strong"] := by
  have h := mathjax_verbatim_before_escape "$x$+".data "$".data "x".data
    (by decide)
  exact ⟨h.1, h.2.1, h.2.2.1, h.2.2.2.1, h.2.2.2.2.1, h.2.2.2.2.2.1,
    h.2.2.2.2.2.2 ["backquote"] ["strong"] (by decide)⟩
